/-
Verification of the MLQ (multilevel-queue) CPU-scheduler simulator
(`mlq_simulator.py`) against its natural-language specification.

The source is shallowly embedded: every mutable Python object becomes explicit
state passing over pure Lean structures; Python `int` becomes `Int`;
`float('inf')` as the SJF quantum is eliminated by the identity
`min(inf, x) = x` (the only use the source makes of it); the in-place
stable `list.sort` becomes `List.mergeSort` (also a stable sort).
-/
import Mathlib

namespace MLQ

/-- A process record, mirroring `Process.__init__`: the five constructor
arguments plus the mutable scheduling fields with their initial values
(`remaining_time = burst_time`, `first_run_time = -1`, the rest `0`). -/
structure Process where
  pid : String
  burst_time : Int
  arrival_time : Int
  queue_num : Int
  priority : Int
  remaining_time : Int
  first_run_time : Int
  completion_time : Int
  turnaround_time : Int
  waiting_time : Int
  response_time : Int
deriving Repr, DecidableEq

/-- `Process(pid, bt, at, q, prio)`: a freshly constructed record. -/
def mkProcess (pid : String) (bt at_ q prio : Int) : Process :=
  { pid := pid, burst_time := bt, arrival_time := at_, queue_num := q,
    priority := prio, remaining_time := bt, first_run_time := -1,
    completion_time := 0, turnaround_time := 0, waiting_time := 0,
    response_time := 0 }

/-- The simulator state, mirroring `MLQSimulator.__init__` (default quanta
3 and 5).  The two deques and the three Python lists all become Lean
lists; `deque.append` / `list.append` append at the tail, `popleft` /
`pop(0)` take the head. -/
structure MLQSimulator where
  quantum1 : Int := 3
  quantum2 : Int := 5
  q1 : List Process := []
  q2 : List Process := []
  q3 : List Process := []
  processes_to_arrive : List Process := []
  completed_processes : List Process := []
  current_time : Int := 0
  current_process : Option Process := none
deriving Repr, DecidableEq

/-- The `while` loop of `check_for_arriving_processes`, made explicit on
its four mutated components: as long as the feed head has
`arrival_time <= current_time`, pop it and append it to the queue matching
its `queue_num` (a record whose `queue_num` is outside {1,2,3} is popped
and silently dropped, exactly as in the source's `if/elif` chain). -/
def admitLoop (t : Int) :
    List Process → List Process → List Process → List Process →
    List Process × List Process × List Process × List Process
  | [], q1, q2, q3 => ([], q1, q2, q3)
  | p :: rest, q1, q2, q3 =>
    if p.arrival_time ≤ t then
      if p.queue_num = 1 then admitLoop t rest (q1 ++ [p]) q2 q3
      else if p.queue_num = 2 then admitLoop t rest q1 (q2 ++ [p]) q3
      else if p.queue_num = 3 then admitLoop t rest q1 q2 (q3 ++ [p])
      else admitLoop t rest q1 q2 q3
    else (p :: rest, q1, q2, q3)

/-- `MLQSimulator.check_for_arriving_processes`. -/
def check_for_arriving_processes (sim : MLQSimulator) : MLQSimulator :=
  let r := admitLoop sim.current_time sim.processes_to_arrive sim.q1 sim.q2 sim.q3
  { sim with
    processes_to_arrive := r.1
    q1 := r.2.1
    q2 := r.2.2.1
    q3 := r.2.2.2 }

/-- The boolean order corresponding to Python's stable sort with key
`(p.burst_time, -p.priority)`: lexicographic comparison of the key
tuples. -/
def q3le (p q : Process) : Bool :=
  decide (p.burst_time < q.burst_time ∨
    (p.burst_time = q.burst_time ∧ -p.priority ≤ -q.priority))

/-- `self.q3.sort(key=lambda p: (p.burst_time, -p.priority))`:
a stable sort by the key order. -/
def sortQ3 (l : List Process) : List Process := l.mergeSort q3le

/-- `MLQSimulator.select_next_process`: pop the front of `q1` if non-empty,
else the front of `q2`, else sort `q3` by `(burst_time, -priority)` and
pop its front; if all three are empty, do nothing. -/
def select_next_process (sim : MLQSimulator) : MLQSimulator :=
  match sim.q1 with
  | p :: rest => { sim with current_process := some p, q1 := rest }
  | [] =>
    match sim.q2 with
    | p :: rest => { sim with current_process := some p, q2 := rest }
    | [] =>
      match sortQ3 sim.q3 with
      | [] => sim
      | p :: rest => { sim with current_process := some p, q3 := rest }

/-- `MLQSimulator.finalize_process`: set `completion_time` to the current
time, derive the three metrics from it, and append the record to
`completed_processes`. -/
def finalize_process (sim : MLQSimulator) (p : Process) : MLQSimulator :=
  let p := { p with completion_time := sim.current_time }
  let p := { p with turnaround_time := p.completion_time - p.arrival_time }
  let p := { p with waiting_time := p.turnaround_time - p.burst_time }
  let p := { p with response_time := p.first_run_time - p.arrival_time }
  { sim with completed_processes := sim.completed_processes ++ [p] }

/-- The slice length `run_time = min(quantum, process.remaining_time)` of
`execute_process`, where `quantum` is `quantum1` for queue 1, `quantum2`
for queue 2 and `float('inf')` otherwise; since
`min(float('inf'), x) = x`, the last case is `remaining_time` itself. -/
def slice_len (sim : MLQSimulator) (p : Process) : Int :=
  if p.queue_num = 1 then min sim.quantum1 p.remaining_time
  else if p.queue_num = 2 then min sim.quantum2 p.remaining_time
  else p.remaining_time

/-- The value of the running process after the slice of
`execute_process`: `first_run_time` is set to the current time if still
`-1`, and `remaining_time` is decreased by the slice length. -/
def executed (sim : MLQSimulator) (p : Process) : Process :=
  let p := if p.first_run_time = -1
    then { p with first_run_time := sim.current_time } else p
  { p with remaining_time := p.remaining_time - slice_len sim p }

/-- `MLQSimulator.execute_process`, with `p` the process read from
`self.current_process`:  stamp `first_run_time` if unset, advance the
clock by the slice length, decrement `remaining_time`, re-run admission,
then either finalize (if `remaining_time == 0`) or re-enqueue the process
at the tail of its own queue — the source branches on `self.q1` being
non-empty but performs the same action in both branches — and clear the
running slot. -/
def execute_process (sim : MLQSimulator) (p : Process) : MLQSimulator :=
  let run_time := slice_len sim p
  let p := executed sim p
  let sim1 := check_for_arriving_processes
    { sim with current_time := sim.current_time + run_time }
  if p.remaining_time = 0 then
    { finalize_process sim1 p with current_process := none }
  else
    if sim1.q1 ≠ [] then
      let sim2 :=
        if p.queue_num = 1 then { sim1 with q1 := sim1.q1 ++ [p] }
        else if p.queue_num = 2 then { sim1 with q2 := sim1.q2 ++ [p] }
        else sim1
      { sim2 with current_process := none }
    else
      let sim2 :=
        if p.queue_num = 1 then { sim1 with q1 := sim1.q1 ++ [p] }
        else if p.queue_num = 2 then { sim1 with q2 := sim1.q2 ++ [p] }
        else sim1
      { sim2 with current_process := none }

/-- `MLQSimulator.run_simulation`, fuel-indexed: the Python `while` loop
runs while the feed, a queue, or the running slot is non-empty; each
iteration admits arrivals, selects a process when the slot is empty, and
then either executes the running process or advances the clock by one
(idle tick).  `none` means the fuel ran out before the loop finished. -/
def run_simulation : Nat → MLQSimulator → Option MLQSimulator
  | 0, _ => none
  | n + 1, sim =>
    if sim.processes_to_arrive = [] ∧ sim.q1 = [] ∧ sim.q2 = [] ∧
        sim.q3 = [] ∧ sim.current_process = none then
      some sim
    else
      let sim1 := check_for_arriving_processes sim
      let sim2 := if sim1.current_process = none
        then select_next_process sim1 else sim1
      match sim2.current_process with
      | some p => run_simulation n (execute_process sim2 p)
      | none =>
        run_simulation n { sim2 with current_time := sim2.current_time + 1 }

/-- The aggregate computation at the end of `write_output`: the four
totals are accumulated over the completed list and the four means are
produced only under the guard `num_processes > 0`; exact rational
division stands in for Python float division (the `:.1f` formatting and
the per-line records are I/O presentation, as is the pid sort, which
permutes output lines but leaves every total unchanged). -/
def write_output_averages (completed : List Process) :
    Option (Rat × Rat × Rat × Rat) :=
  let total_wt := (completed.map Process.waiting_time).sum
  let total_ct := (completed.map Process.completion_time).sum
  let total_rt := (completed.map Process.response_time).sum
  let total_tat := (completed.map Process.turnaround_time).sum
  let num_processes := completed.length
  if num_processes > 0 then
    some ((total_wt : Rat) / num_processes, (total_ct : Rat) / num_processes,
      (total_rt : Rat) / num_processes, (total_tat : Rat) / num_processes)
  else none

/-- The simulator state right after `load_processes` handed the loader's
record list to the core: all queues empty, clock at `0`, no running
process, default quanta. -/
def initSim (feed : List Process) : MLQSimulator :=
  { processes_to_arrive := feed }

/-- An input record as handed over by the loader: identifier, burst time,
arrival time, queue number, priority. -/
def loadRecord (r : String × Int × Int × Int × Int) : Process :=
  mkProcess r.1 r.2.1 r.2.2.1 r.2.2.2.1 r.2.2.2.2

/-- The input contract of §6 of the spec on a raw record: positive burst
time, non-negative arrival time, queue number in {1,2,3}. -/
def ValidRecord (r : String × Int × Int × Int × Int) : Prop :=
  1 ≤ r.2.1 ∧ 0 ≤ r.2.2.1 ∧
    (r.2.2.2.1 = 1 ∨ r.2.2.2.1 = 2 ∨ r.2.2.2.1 = 3)

instance (r : String × Int × Int × Int × Int) : Decidable (ValidRecord r) := by
  unfold ValidRecord; infer_instance

/-- A process still sitting in the arrival feed: valid static attributes,
untouched mutable state. -/
def FreshProc (p : Process) : Prop :=
  1 ≤ p.burst_time ∧ 0 ≤ p.arrival_time ∧
  (p.queue_num = 1 ∨ p.queue_num = 2 ∨ p.queue_num = 3) ∧
  p.remaining_time = p.burst_time ∧ p.first_run_time = -1

/-- A process admitted to a queue at or before time `t`: positive
remaining work, bounded by its burst, with the elapsed own work accounted
for by the clock, and a first-run stamp that is either unset or no
earlier than the arrival. -/
def QueuedProc (t : Int) (p : Process) : Prop :=
  1 ≤ p.remaining_time ∧ p.remaining_time ≤ p.burst_time ∧
  0 ≤ p.arrival_time ∧
  p.arrival_time + (p.burst_time - p.remaining_time) ≤ t ∧
  (p.first_run_time = -1 ∨ p.arrival_time ≤ p.first_run_time)

/-- A finalized process: no remaining work, the three §3 derivations
hold, and the completion clock covers arrival plus whole burst. -/
def DoneProc (p : Process) : Prop :=
  1 ≤ p.burst_time ∧ p.remaining_time = 0 ∧
  p.turnaround_time = p.completion_time - p.arrival_time ∧
  p.waiting_time = p.turnaround_time - p.burst_time ∧
  p.response_time = p.first_run_time - p.arrival_time ∧
  p.arrival_time + p.burst_time ≤ p.completion_time ∧
  0 ≤ p.arrival_time ∧ p.arrival_time ≤ p.first_run_time

/-- The multiset of process identifiers of a list. -/
def pidsOf (l : List Process) : Multiset String := (l.map Process.pid : List String)

/-- Total outstanding work of a list of processes. -/
def workOf (l : List Process) : Nat :=
  (l.map (fun p => p.remaining_time.toNat)).sum

/-- Largest arrival time in a list (`0` when empty). -/
def maxArr (l : List Process) : Int :=
  l.foldr (fun p m => max p.arrival_time m) 0

/-- Identifiers everywhere in the simulator: feed, queues, completed
list, and the running slot. -/
def allPids (sim : MLQSimulator) : Multiset String :=
  pidsOf sim.processes_to_arrive + pidsOf sim.q1 + pidsOf sim.q2 +
    pidsOf sim.q3 + pidsOf sim.completed_processes +
    (sim.current_process.elim 0 (fun p => {p.pid}))

/-- Termination measure of the simulation loop: outstanding work
everywhere plus the clock's distance to the last pending arrival. -/
def simMeasure (sim : MLQSimulator) : Nat :=
  workOf sim.processes_to_arrive + workOf sim.q1 + workOf sim.q2 +
    workOf sim.q3 +
    (sim.current_process.elim 0 (fun p => p.remaining_time.toNat)) +
    (maxArr sim.processes_to_arrive - sim.current_time).toNat

/-- The loop invariant of `run_simulation`, at the states the loop
reaches between iterations (running slot handled separately). -/
structure Inv (sim : MLQSimulator) : Prop where
  hq1 : 1 ≤ sim.quantum1
  hq2 : 1 ≤ sim.quantum2
  ht : 0 ≤ sim.current_time
  hfeed : ∀ p ∈ sim.processes_to_arrive, FreshProc p
  hQ1 : ∀ p ∈ sim.q1, p.queue_num = 1 ∧ QueuedProc sim.current_time p
  hQ2 : ∀ p ∈ sim.q2, p.queue_num = 2 ∧ QueuedProc sim.current_time p
  hQ3 : ∀ p ∈ sim.q3, p.queue_num = 3 ∧ QueuedProc sim.current_time p
  hdone : ∀ p ∈ sim.completed_processes, DoneProc p

/-! ### Elementary list accounting lemmas -/

theorem pidsOf_append (a b : List Process) :
    pidsOf (a ++ b) = pidsOf a + pidsOf b := by
  simp [pidsOf]

theorem pidsOf_perm {a b : List Process} (h : a.Perm b) :
    pidsOf a = pidsOf b := by
  exact Multiset.coe_eq_coe.mpr (h.map _)

theorem pidsOf_cons (p : Process) (l : List Process) :
    pidsOf (p :: l) = {p.pid} + pidsOf l := by
  simp [pidsOf]

theorem workOf_append (a b : List Process) :
    workOf (a ++ b) = workOf a + workOf b := by
  simp [workOf]

theorem workOf_perm {a b : List Process} (h : a.Perm b) :
    workOf a = workOf b := by
  exact (h.map _).sum_eq

theorem workOf_cons (p : Process) (l : List Process) :
    workOf (p :: l) = p.remaining_time.toNat + workOf l := by
  simp [workOf]

theorem pidsOf_nil : pidsOf [] = 0 := rfl

theorem workOf_nil : workOf [] = 0 := rfl

theorem pidsOf_singleton (p : Process) : pidsOf [p] = {p.pid} := by
  simp [pidsOf]

theorem workOf_singleton (p : Process) : workOf [p] = p.remaining_time.toNat := by
  simp [workOf]

theorem maxArr_cons (p : Process) (l : List Process) :
    maxArr (p :: l) = max p.arrival_time (maxArr l) := rfl

theorem le_maxArr_of_mem {p : Process} {l : List Process} (h : p ∈ l) :
    p.arrival_time ≤ maxArr l := by
  induction l with
  | nil => cases h
  | cons q rest ih =>
    rcases List.mem_cons.mp h with rfl | h'
    · exact le_max_left _ _
    · exact le_trans (ih h') (le_max_right _ _)

theorem maxArr_suffix_le (a b : List Process) :
    maxArr b ≤ maxArr (a ++ b) := by
  induction a with
  | nil => simp
  | cons q rest ih => exact le_trans ih (le_max_right _ _)

/-! ### Behaviour of the admission loop -/

theorem admitLoop_cons_le {t : Int} {p : Process} (h : p.arrival_time ≤ t)
    (rest q1 q2 q3 : List Process) :
    admitLoop t (p :: rest) q1 q2 q3 =
      if p.queue_num = 1 then admitLoop t rest (q1 ++ [p]) q2 q3
      else if p.queue_num = 2 then admitLoop t rest q1 (q2 ++ [p]) q3
      else if p.queue_num = 3 then admitLoop t rest q1 q2 (q3 ++ [p])
      else admitLoop t rest q1 q2 q3 := by
  simp [admitLoop, h]

theorem admitLoop_cons_gt {t : Int} {p : Process} (h : ¬ p.arrival_time ≤ t)
    (rest q1 q2 q3 : List Process) :
    admitLoop t (p :: rest) q1 q2 q3 = (p :: rest, q1, q2, q3) := by
  simp [admitLoop, h]

/-- The feed left by the admission loop is a suffix of the incoming feed,
every dropped prefix element having arrived. -/
theorem admitLoop_suffix (t : Int) (f q1 q2 q3 : List Process) :
    ∃ pre, f = pre ++ (admitLoop t f q1 q2 q3).1 := by
  induction f generalizing q1 q2 q3 with
  | nil => exact ⟨[], rfl⟩
  | cons p rest ih =>
    by_cases h : p.arrival_time ≤ t
    · rw [admitLoop_cons_le h]
      split_ifs with h1 h2 h3 <;>
        [obtain ⟨pre, hp⟩ := ih (q1 ++ [p]) q2 q3;
         obtain ⟨pre, hp⟩ := ih q1 (q2 ++ [p]) q3;
         obtain ⟨pre, hp⟩ := ih q1 q2 (q3 ++ [p]);
         obtain ⟨pre, hp⟩ := ih q1 q2 q3] <;>
        exact ⟨p :: pre, by simp [← hp]⟩
    · rw [admitLoop_cons_gt h]
      exact ⟨[], rfl⟩

/-- After admission the remaining feed is empty or starts with a record
that has not yet arrived. -/
theorem admitLoop_head (t : Int) (f q1 q2 q3 : List Process) :
    (admitLoop t f q1 q2 q3).1 = [] ∨
      ∃ p rest, (admitLoop t f q1 q2 q3).1 = p :: rest ∧
        t < p.arrival_time := by
  induction f generalizing q1 q2 q3 with
  | nil => exact Or.inl rfl
  | cons p rest ih =>
    by_cases h : p.arrival_time ≤ t
    · rw [admitLoop_cons_le h]
      split_ifs with h1 h2 h3 <;> apply ih
    · rw [admitLoop_cons_gt h]
      exact Or.inr ⟨p, rest, rfl, not_le.mp h⟩

/-- Admission conserves the multiset of identifiers across the feed and
the three queues, provided every feed record names a real queue. -/
theorem admitLoop_pids (t : Int) (f q1 q2 q3 : List Process)
    (hf : ∀ p ∈ f, p.queue_num = 1 ∨ p.queue_num = 2 ∨ p.queue_num = 3) :
    pidsOf (admitLoop t f q1 q2 q3).1 + pidsOf (admitLoop t f q1 q2 q3).2.1 +
      pidsOf (admitLoop t f q1 q2 q3).2.2.1 +
      pidsOf (admitLoop t f q1 q2 q3).2.2.2 =
    pidsOf f + pidsOf q1 + pidsOf q2 + pidsOf q3 := by
  induction f generalizing q1 q2 q3 with
  | nil => rfl
  | cons p rest ih =>
    have hrest : ∀ q ∈ rest, q.queue_num = 1 ∨ q.queue_num = 2 ∨ q.queue_num = 3 :=
      fun q hq => hf q (List.mem_cons_of_mem p hq)
    by_cases h : p.arrival_time ≤ t
    · rw [admitLoop_cons_le h]
      split_ifs with h1 h2 h3
      · rw [ih (q1 ++ [p]) q2 q3 hrest]
        simp only [pidsOf_append, pidsOf_cons, pidsOf_singleton, pidsOf_nil]
        abel
      · rw [ih q1 (q2 ++ [p]) q3 hrest]
        simp only [pidsOf_append, pidsOf_cons, pidsOf_singleton, pidsOf_nil]
        abel
      · rw [ih q1 q2 (q3 ++ [p]) hrest]
        simp only [pidsOf_append, pidsOf_cons, pidsOf_singleton, pidsOf_nil]
        abel
      · exact absurd (hf p (List.mem_cons_self p rest)) (by simp [h1, h2, h3])
    · rw [admitLoop_cons_gt h]

/-- Admission conserves total outstanding work, provided every feed
record names a real queue. -/
theorem admitLoop_work (t : Int) (f q1 q2 q3 : List Process)
    (hf : ∀ p ∈ f, p.queue_num = 1 ∨ p.queue_num = 2 ∨ p.queue_num = 3) :
    workOf (admitLoop t f q1 q2 q3).1 + workOf (admitLoop t f q1 q2 q3).2.1 +
      workOf (admitLoop t f q1 q2 q3).2.2.1 +
      workOf (admitLoop t f q1 q2 q3).2.2.2 =
    workOf f + workOf q1 + workOf q2 + workOf q3 := by
  induction f generalizing q1 q2 q3 with
  | nil => rfl
  | cons p rest ih =>
    have hrest : ∀ q ∈ rest, q.queue_num = 1 ∨ q.queue_num = 2 ∨ q.queue_num = 3 :=
      fun q hq => hf q (List.mem_cons_of_mem p hq)
    by_cases h : p.arrival_time ≤ t
    · rw [admitLoop_cons_le h]
      split_ifs with h1 h2 h3
      · rw [ih (q1 ++ [p]) q2 q3 hrest]
        simp only [workOf_append, workOf_cons, workOf_singleton, workOf_nil]
        omega
      · rw [ih q1 (q2 ++ [p]) q3 hrest]
        simp only [workOf_append, workOf_cons, workOf_singleton, workOf_nil]
        omega
      · rw [ih q1 q2 (q3 ++ [p]) hrest]
        simp only [workOf_append, workOf_cons, workOf_singleton, workOf_nil]
        omega
      · exact absurd (hf p (List.mem_cons_self p rest)) (by simp [h1, h2, h3])
    · rw [admitLoop_cons_gt h]

/-- Each queue coming out of admission extends the incoming queue at the
tail with records that were in the feed, had arrived, and name that
queue. -/
theorem admitLoop_queues (t : Int) (f q1 q2 q3 : List Process) :
    (∃ s, (admitLoop t f q1 q2 q3).2.1 = q1 ++ s ∧
      ∀ p ∈ s, p ∈ f ∧ p.arrival_time ≤ t ∧ p.queue_num = 1) ∧
    (∃ s, (admitLoop t f q1 q2 q3).2.2.1 = q2 ++ s ∧
      ∀ p ∈ s, p ∈ f ∧ p.arrival_time ≤ t ∧ p.queue_num = 2) ∧
    (∃ s, (admitLoop t f q1 q2 q3).2.2.2 = q3 ++ s ∧
      ∀ p ∈ s, p ∈ f ∧ p.arrival_time ≤ t ∧ p.queue_num = 3) := by
  induction f generalizing q1 q2 q3 with
  | nil =>
    exact ⟨⟨[], by simp [admitLoop], by simp⟩, ⟨[], by simp [admitLoop], by simp⟩,
      ⟨[], by simp [admitLoop], by simp⟩⟩
  | cons p rest ih =>
    by_cases h : p.arrival_time ≤ t
    · rw [admitLoop_cons_le h]
      split_ifs with h1 h2 h3
      · obtain ⟨⟨s1, hs1, hm1⟩, ⟨s2, hs2, hm2⟩, ⟨s3, hs3, hm3⟩⟩ :=
          ih (q1 ++ [p]) q2 q3
        refine ⟨⟨p :: s1, by simp [hs1], ?_⟩,
          ⟨s2, hs2, fun q hq => ?_⟩, ⟨s3, hs3, fun q hq => ?_⟩⟩
        · intro q hq
          rcases List.mem_cons.mp hq with rfl | hq0
          · exact ⟨List.mem_cons_self _ _, h, h1⟩
          · obtain ⟨hm, ha, hn⟩ := hm1 q hq0
            exact ⟨List.mem_cons_of_mem _ hm, ha, hn⟩
        · obtain ⟨hm, ha, hn⟩ := hm2 q hq
          exact ⟨List.mem_cons_of_mem _ hm, ha, hn⟩
        · obtain ⟨hm, ha, hn⟩ := hm3 q hq
          exact ⟨List.mem_cons_of_mem _ hm, ha, hn⟩
      · obtain ⟨⟨s1, hs1, hm1⟩, ⟨s2, hs2, hm2⟩, ⟨s3, hs3, hm3⟩⟩ :=
          ih q1 (q2 ++ [p]) q3
        refine ⟨⟨s1, hs1, fun q hq => ?_⟩,
          ⟨p :: s2, by simp [hs2], ?_⟩, ⟨s3, hs3, fun q hq => ?_⟩⟩
        · obtain ⟨hm, ha, hn⟩ := hm1 q hq
          exact ⟨List.mem_cons_of_mem _ hm, ha, hn⟩
        · intro q hq
          rcases List.mem_cons.mp hq with rfl | hq0
          · exact ⟨List.mem_cons_self _ _, h, h2⟩
          · obtain ⟨hm, ha, hn⟩ := hm2 q hq0
            exact ⟨List.mem_cons_of_mem _ hm, ha, hn⟩
        · obtain ⟨hm, ha, hn⟩ := hm3 q hq
          exact ⟨List.mem_cons_of_mem _ hm, ha, hn⟩
      · obtain ⟨⟨s1, hs1, hm1⟩, ⟨s2, hs2, hm2⟩, ⟨s3, hs3, hm3⟩⟩ :=
          ih q1 q2 (q3 ++ [p])
        refine ⟨⟨s1, hs1, fun q hq => ?_⟩, ⟨s2, hs2, fun q hq => ?_⟩,
          ⟨p :: s3, by simp [hs3], ?_⟩⟩
        · obtain ⟨hm, ha, hn⟩ := hm1 q hq
          exact ⟨List.mem_cons_of_mem _ hm, ha, hn⟩
        · obtain ⟨hm, ha, hn⟩ := hm2 q hq
          exact ⟨List.mem_cons_of_mem _ hm, ha, hn⟩
        · intro q hq
          rcases List.mem_cons.mp hq with rfl | hq0
          · exact ⟨List.mem_cons_self _ _, h, h3⟩
          · obtain ⟨hm, ha, hn⟩ := hm3 q hq0
            exact ⟨List.mem_cons_of_mem _ hm, ha, hn⟩
      · obtain ⟨⟨s1, hs1, hm1⟩, ⟨s2, hs2, hm2⟩, ⟨s3, hs3, hm3⟩⟩ :=
          ih q1 q2 q3
        refine ⟨⟨s1, hs1, fun q hq => ?_⟩, ⟨s2, hs2, fun q hq => ?_⟩,
          ⟨s3, hs3, fun q hq => ?_⟩⟩
        · obtain ⟨hm, ha, hn⟩ := hm1 q hq
          exact ⟨List.mem_cons_of_mem _ hm, ha, hn⟩
        · obtain ⟨hm, ha, hn⟩ := hm2 q hq
          exact ⟨List.mem_cons_of_mem _ hm, ha, hn⟩
        · obtain ⟨hm, ha, hn⟩ := hm3 q hq
          exact ⟨List.mem_cons_of_mem _ hm, ha, hn⟩
    · rw [admitLoop_cons_gt h]
      exact ⟨⟨[], by simp, by simp⟩, ⟨[], by simp, by simp⟩,
        ⟨[], by simp, by simp⟩⟩

/-- On a feed sorted by arrival time, every record that has arrived and
names queue `k` ends up in queue `k`. -/
theorem admitLoop_admits {t : Int} {f : List Process}
    (hs : f.Pairwise (fun a b => a.arrival_time ≤ b.arrival_time))
    {r : Process} (hr : r ∈ f) (hra : r.arrival_time ≤ t)
    (q1 q2 q3 : List Process) :
    (r.queue_num = 1 → r ∈ (admitLoop t f q1 q2 q3).2.1) ∧
    (r.queue_num = 2 → r ∈ (admitLoop t f q1 q2 q3).2.2.1) ∧
    (r.queue_num = 3 → r ∈ (admitLoop t f q1 q2 q3).2.2.2) := by
  induction f generalizing q1 q2 q3 with
  | nil => cases hr
  | cons p rest ih =>
    have hple : p.arrival_time ≤ t := by
      rcases List.mem_cons.mp hr with rfl | hr'
      · exact hra
      · exact le_trans ((List.pairwise_cons.mp hs).1 r hr') hra
    rw [admitLoop_cons_le hple]
    rcases List.mem_cons.mp hr with rfl | hr'
    · split_ifs with h1 h2 h3
      · obtain ⟨⟨s1, hs1, _⟩, _, _⟩ := admitLoop_queues t rest (q1 ++ [r]) q2 q3
        exact ⟨fun _ => by simp [hs1], fun hk => absurd h1 (by simp [hk]),
          fun hk => absurd h1 (by simp [hk])⟩
      · obtain ⟨_, ⟨s2, hs2, _⟩, _⟩ := admitLoop_queues t rest q1 (q2 ++ [r]) q3
        exact ⟨fun hk => absurd hk h1, fun _ => by simp [hs2],
          fun hk => absurd h2 (by simp [hk])⟩
      · obtain ⟨_, _, ⟨s3, hs3, _⟩⟩ := admitLoop_queues t rest q1 q2 (q3 ++ [r])
        exact ⟨fun hk => absurd hk h1, fun hk => absurd hk h2,
          fun _ => by simp [hs3]⟩
      · exact ⟨fun hk => absurd hk h1, fun hk => absurd hk h2,
          fun hk => absurd hk h3⟩
    · have := ih (List.pairwise_cons.mp hs).2 hr'
      split_ifs with h1 h2 h3 <;> exact this _ _ _

/-! ### The admission step on full simulator states -/

theorem check_time (sim : MLQSimulator) :
    (check_for_arriving_processes sim).current_time = sim.current_time := rfl

theorem check_quantum1 (sim : MLQSimulator) :
    (check_for_arriving_processes sim).quantum1 = sim.quantum1 := rfl

theorem check_quantum2 (sim : MLQSimulator) :
    (check_for_arriving_processes sim).quantum2 = sim.quantum2 := rfl

theorem check_completed (sim : MLQSimulator) :
    (check_for_arriving_processes sim).completed_processes =
      sim.completed_processes := rfl

theorem check_current (sim : MLQSimulator) :
    (check_for_arriving_processes sim).current_process =
      sim.current_process := rfl

theorem check_feed_eq (sim : MLQSimulator) :
    (check_for_arriving_processes sim).processes_to_arrive =
      (admitLoop sim.current_time sim.processes_to_arrive sim.q1 sim.q2
        sim.q3).1 := rfl

theorem check_q1_eq (sim : MLQSimulator) :
    (check_for_arriving_processes sim).q1 =
      (admitLoop sim.current_time sim.processes_to_arrive sim.q1 sim.q2
        sim.q3).2.1 := rfl

theorem check_q2_eq (sim : MLQSimulator) :
    (check_for_arriving_processes sim).q2 =
      (admitLoop sim.current_time sim.processes_to_arrive sim.q1 sim.q2
        sim.q3).2.2.1 := rfl

theorem check_q3_eq (sim : MLQSimulator) :
    (check_for_arriving_processes sim).q3 =
      (admitLoop sim.current_time sim.processes_to_arrive sim.q1 sim.q2
        sim.q3).2.2.2 := rfl

theorem fresh_queued {t : Int} {p : Process} (h : FreshProc p)
    (hle : p.arrival_time ≤ t) : QueuedProc t p := by
  obtain ⟨hb, ha, _, hr, hf⟩ := h
  exact ⟨by omega, by omega, ha, by omega, Or.inl hf⟩

theorem queued_mono {t t' : Int} {p : Process} (h : QueuedProc t p)
    (hle : t ≤ t') : QueuedProc t' p := by
  obtain ⟨h1, h2, h3, h4, h5⟩ := h
  exact ⟨h1, h2, h3, by omega, h5⟩

theorem check_Inv {sim : MLQSimulator} (h : Inv sim) :
    Inv (check_for_arriving_processes sim) := by
  obtain ⟨pre, hpre⟩ := admitLoop_suffix sim.current_time
    sim.processes_to_arrive sim.q1 sim.q2 sim.q3
  obtain ⟨⟨s1, hs1, hm1⟩, ⟨s2, hs2, hm2⟩, ⟨s3, hs3, hm3⟩⟩ :=
    admitLoop_queues sim.current_time sim.processes_to_arrive sim.q1
      sim.q2 sim.q3
  refine ⟨h.hq1, h.hq2, h.ht, ?_, ?_, ?_, ?_, h.hdone⟩
  · intro p hp
    rw [check_feed_eq] at hp
    exact h.hfeed p (by rw [hpre]; exact List.mem_append_right pre hp)
  · intro p hp
    rw [check_q1_eq, hs1] at hp
    rw [check_time]
    rcases List.mem_append.mp hp with h1 | h1
    · exact h.hQ1 p h1
    · obtain ⟨hmem, harr, hqn⟩ := hm1 p h1
      exact ⟨hqn, fresh_queued (h.hfeed p hmem) harr⟩
  · intro p hp
    rw [check_q2_eq, hs2] at hp
    rw [check_time]
    rcases List.mem_append.mp hp with h1 | h1
    · exact h.hQ2 p h1
    · obtain ⟨hmem, harr, hqn⟩ := hm2 p h1
      exact ⟨hqn, fresh_queued (h.hfeed p hmem) harr⟩
  · intro p hp
    rw [check_q3_eq, hs3] at hp
    rw [check_time]
    rcases List.mem_append.mp hp with h1 | h1
    · exact h.hQ3 p h1
    · obtain ⟨hmem, harr, hqn⟩ := hm3 p h1
      exact ⟨hqn, fresh_queued (h.hfeed p hmem) harr⟩

theorem check_allPids {sim : MLQSimulator}
    (hf : ∀ p ∈ sim.processes_to_arrive,
      p.queue_num = 1 ∨ p.queue_num = 2 ∨ p.queue_num = 3) :
    allPids (check_for_arriving_processes sim) = allPids sim := by
  have h := admitLoop_pids sim.current_time sim.processes_to_arrive sim.q1
    sim.q2 sim.q3 hf
  unfold allPids
  rw [check_feed_eq, check_q1_eq, check_q2_eq, check_q3_eq,
    check_completed, check_current, h]

theorem check_maxArr_le (sim : MLQSimulator) :
    maxArr (check_for_arriving_processes sim).processes_to_arrive ≤
      maxArr sim.processes_to_arrive := by
  obtain ⟨pre, hpre⟩ := admitLoop_suffix sim.current_time
    sim.processes_to_arrive sim.q1 sim.q2 sim.q3
  rw [check_feed_eq]
  calc maxArr (admitLoop sim.current_time sim.processes_to_arrive sim.q1
        sim.q2 sim.q3).1 ≤
      maxArr (pre ++ (admitLoop sim.current_time sim.processes_to_arrive
        sim.q1 sim.q2 sim.q3).1) := maxArr_suffix_le _ _
    _ = maxArr sim.processes_to_arrive := by rw [← hpre]

theorem check_work {sim : MLQSimulator}
    (hf : ∀ p ∈ sim.processes_to_arrive,
      p.queue_num = 1 ∨ p.queue_num = 2 ∨ p.queue_num = 3) :
    workOf (check_for_arriving_processes sim).processes_to_arrive +
      workOf (check_for_arriving_processes sim).q1 +
      workOf (check_for_arriving_processes sim).q2 +
      workOf (check_for_arriving_processes sim).q3 =
    workOf sim.processes_to_arrive + workOf sim.q1 + workOf sim.q2 +
      workOf sim.q3 := by
  rw [check_feed_eq, check_q1_eq, check_q2_eq, check_q3_eq]
  exact admitLoop_work sim.current_time sim.processes_to_arrive sim.q1
    sim.q2 sim.q3 hf

theorem check_head (sim : MLQSimulator) :
    (check_for_arriving_processes sim).processes_to_arrive = [] ∨
      ∃ p rest, (check_for_arriving_processes sim).processes_to_arrive =
        p :: rest ∧ sim.current_time < p.arrival_time := by
  rw [check_feed_eq]
  exact admitLoop_head sim.current_time sim.processes_to_arrive sim.q1
    sim.q2 sim.q3

/-! ### Selection -/

theorem sortQ3_nil : sortQ3 [] = [] :=
  List.perm_nil.mp (List.mergeSort_perm [] q3le)

theorem select_of_q1 {sim : MLQSimulator} {p : Process} {rest : List Process}
    (h : sim.q1 = p :: rest) :
    select_next_process sim =
      { sim with current_process := some p, q1 := rest } := by
  unfold select_next_process
  rw [h]

theorem select_of_q2 {sim : MLQSimulator} {p : Process} {rest : List Process}
    (h1 : sim.q1 = []) (h2 : sim.q2 = p :: rest) :
    select_next_process sim =
      { sim with current_process := some p, q2 := rest } := by
  unfold select_next_process
  rw [h1, h2]

theorem select_of_q3 {sim : MLQSimulator} {p : Process} {rest : List Process}
    (h1 : sim.q1 = []) (h2 : sim.q2 = []) (h3 : sortQ3 sim.q3 = p :: rest) :
    select_next_process sim =
      { sim with current_process := some p, q3 := rest } := by
  unfold select_next_process
  rw [h1, h2, h3]

theorem select_of_empty {sim : MLQSimulator}
    (h1 : sim.q1 = []) (h2 : sim.q2 = []) (h3 : sim.q3 = []) :
    select_next_process sim = sim := by
  unfold select_next_process
  rw [h1, h2, h3, sortQ3_nil]

/-! ### The executed process -/

theorem executed_pid (sim : MLQSimulator) (p : Process) :
    (executed sim p).pid = p.pid := by
  unfold executed; split <;> rfl

theorem executed_burst (sim : MLQSimulator) (p : Process) :
    (executed sim p).burst_time = p.burst_time := by
  unfold executed; split <;> rfl

theorem executed_arrival (sim : MLQSimulator) (p : Process) :
    (executed sim p).arrival_time = p.arrival_time := by
  unfold executed; split <;> rfl

theorem executed_queue_num (sim : MLQSimulator) (p : Process) :
    (executed sim p).queue_num = p.queue_num := by
  unfold executed; split <;> rfl

theorem executed_completion (sim : MLQSimulator) (p : Process) :
    (executed sim p).completion_time = p.completion_time := by
  unfold executed; split <;> rfl

theorem executed_remaining (sim : MLQSimulator) (p : Process) :
    (executed sim p).remaining_time =
      p.remaining_time - slice_len sim p := by
  unfold executed; split <;> rfl

theorem executed_first_run_set {p : Process} (sim : MLQSimulator)
    (h : p.first_run_time = -1) :
    (executed sim p).first_run_time = sim.current_time := by
  unfold executed; rw [if_pos h]

theorem executed_first_run_keep {p : Process} (sim : MLQSimulator)
    (h : ¬ p.first_run_time = -1) :
    (executed sim p).first_run_time = p.first_run_time := by
  unfold executed; rw [if_neg h]

/-! ### The two exits of the execution slice -/

theorem execute_process_final {sim : MLQSimulator} {p : Process}
    (h : (executed sim p).remaining_time = 0) :
    execute_process sim p =
      { finalize_process (check_for_arriving_processes
          { sim with current_time := sim.current_time + slice_len sim p })
          (executed sim p) with current_process := none } := by
  simp only [execute_process]
  rw [if_pos h]

theorem execute_process_requeue {sim : MLQSimulator} {p : Process}
    (h : ¬ (executed sim p).remaining_time = 0) :
    execute_process sim p =
      (let sim1 := check_for_arriving_processes
        { sim with current_time := sim.current_time + slice_len sim p }
       let q := executed sim p
       if q.queue_num = 1 then
         { sim1 with q1 := sim1.q1 ++ [q], current_process := none }
       else if q.queue_num = 2 then
         { sim1 with q2 := sim1.q2 ++ [q], current_process := none }
       else { sim1 with current_process := none }) := by
  simp only [execute_process]
  rw [if_neg h]
  by_cases hq : (check_for_arriving_processes
      { sim with current_time := sim.current_time + slice_len sim p }).q1 ≠ []
  · rw [if_pos hq]; split_ifs <;> rfl
  · rw [if_neg hq]; split_ifs <;> rfl

/-! ### Slice length case analysis and the finalized record -/

theorem slice_len_q1 {p : Process} (sim : MLQSimulator)
    (h : p.queue_num = 1) :
    slice_len sim p = min sim.quantum1 p.remaining_time := by
  unfold slice_len; rw [if_pos h]

theorem slice_len_q2 {p : Process} (sim : MLQSimulator)
    (h : p.queue_num = 2) :
    slice_len sim p = min sim.quantum2 p.remaining_time := by
  unfold slice_len; rw [if_neg (by omega), if_pos h]

theorem slice_len_q3 {p : Process} (sim : MLQSimulator)
    (h : p.queue_num = 3) :
    slice_len sim p = p.remaining_time := by
  unfold slice_len; rw [if_neg (by omega), if_neg (by omega)]

/-- The record as `finalize_process` appends it: completion stamped with
the current clock and the three §3 metrics derived from it. -/
def finalizedRecord (sim : MLQSimulator) (p : Process) : Process :=
  { p with
    completion_time := sim.current_time
    turnaround_time := sim.current_time - p.arrival_time
    waiting_time := sim.current_time - p.arrival_time - p.burst_time
    response_time := p.first_run_time - p.arrival_time }

theorem finalize_eq (sim : MLQSimulator) (p : Process) :
    finalize_process sim p =
      { sim with completed_processes :=
          sim.completed_processes ++ [finalizedRecord sim p] } := rfl

theorem finalizedRecord_pid (sim : MLQSimulator) (p : Process) :
    (finalizedRecord sim p).pid = p.pid := rfl

theorem finalizedRecord_burst (sim : MLQSimulator) (p : Process) :
    (finalizedRecord sim p).burst_time = p.burst_time := rfl

theorem finalizedRecord_arrival (sim : MLQSimulator) (p : Process) :
    (finalizedRecord sim p).arrival_time = p.arrival_time := rfl

theorem finalizedRecord_remaining (sim : MLQSimulator) (p : Process) :
    (finalizedRecord sim p).remaining_time = p.remaining_time := rfl

theorem finalizedRecord_first_run (sim : MLQSimulator) (p : Process) :
    (finalizedRecord sim p).first_run_time = p.first_run_time := rfl

theorem finalizedRecord_completion (sim : MLQSimulator) (p : Process) :
    (finalizedRecord sim p).completion_time = sim.current_time := rfl

theorem finalizedRecord_turnaround (sim : MLQSimulator) (p : Process) :
    (finalizedRecord sim p).turnaround_time =
      sim.current_time - p.arrival_time := rfl

theorem finalizedRecord_waiting (sim : MLQSimulator) (p : Process) :
    (finalizedRecord sim p).waiting_time =
      sim.current_time - p.arrival_time - p.burst_time := rfl

theorem finalizedRecord_response (sim : MLQSimulator) (p : Process) :
    (finalizedRecord sim p).response_time =
      p.first_run_time - p.arrival_time := rfl

/-! ### One execution slice: invariants, conservation, measure -/

theorem execute_spec {σ : MLQSimulator} {p : Process}
    (hInv : Inv σ) (hp : QueuedProc σ.current_time p)
    (hpq : p.queue_num = 1 ∨ p.queue_num = 2 ∨ p.queue_num = 3) :
    Inv (execute_process σ p) ∧
    (execute_process σ p).current_process = none ∧
    (pidsOf (execute_process σ p).processes_to_arrive +
      pidsOf (execute_process σ p).q1 + pidsOf (execute_process σ p).q2 +
      pidsOf (execute_process σ p).q3 +
      pidsOf (execute_process σ p).completed_processes =
      pidsOf σ.processes_to_arrive + pidsOf σ.q1 + pidsOf σ.q2 +
      pidsOf σ.q3 + pidsOf σ.completed_processes + {p.pid}) ∧
    (workOf (execute_process σ p).processes_to_arrive +
      workOf (execute_process σ p).q1 + workOf (execute_process σ p).q2 +
      workOf (execute_process σ p).q3 +
      (maxArr (execute_process σ p).processes_to_arrive -
        (execute_process σ p).current_time).toNat + 1 ≤
      workOf σ.processes_to_arrive + workOf σ.q1 + workOf σ.q2 +
      workOf σ.q3 + p.remaining_time.toNat +
      (maxArr σ.processes_to_arrive - σ.current_time).toNat) := by
  obtain ⟨hrem1, hremb, harr0, helap, hfr⟩ := hp
  have hqa := hInv.hq1
  have hqb := hInv.hq2
  have ht0 := hInv.ht
  have hrun1 : 1 ≤ slice_len σ p := by
    rcases hpq with h | h | h
    · rw [slice_len_q1 σ h]; omega
    · rw [slice_len_q2 σ h]; omega
    · rw [slice_len_q3 σ h]; omega
  have hrunle : slice_len σ p ≤ p.remaining_time := by
    rcases hpq with h | h | h
    · rw [slice_len_q1 σ h]; omega
    · rw [slice_len_q2 σ h]; omega
    · rw [slice_len_q3 σ h]
  have harrt : p.arrival_time ≤ σ.current_time := by omega
  have hfr' : p.arrival_time ≤ (executed σ p).first_run_time := by
    by_cases h : p.first_run_time = -1
    · rw [executed_first_run_set σ h]; exact harrt
    · rw [executed_first_run_keep σ h]
      rcases hfr with h' | h'
      · exact absurd h' h
      · exact h'
  have hfr2 : (executed σ p).arrival_time ≤ (executed σ p).first_run_time := by
    rw [executed_arrival]; exact hfr'
  have hInv1 : Inv { σ with current_time := σ.current_time + slice_len σ p } := by
    refine ⟨hInv.hq1, hInv.hq2, ?_, hInv.hfeed, ?_, ?_, ?_, hInv.hdone⟩
    · show 0 ≤ σ.current_time + slice_len σ p
      omega
    · intro q hq
      obtain ⟨ha, hb⟩ := hInv.hQ1 q hq
      refine ⟨ha, queued_mono hb ?_⟩
      show σ.current_time ≤ σ.current_time + slice_len σ p
      omega
    · intro q hq
      obtain ⟨ha, hb⟩ := hInv.hQ2 q hq
      refine ⟨ha, queued_mono hb ?_⟩
      show σ.current_time ≤ σ.current_time + slice_len σ p
      omega
    · intro q hq
      obtain ⟨ha, hb⟩ := hInv.hQ3 q hq
      refine ⟨ha, queued_mono hb ?_⟩
      show σ.current_time ≤ σ.current_time + slice_len σ p
      omega
  set σ₁ := { σ with current_time := σ.current_time + slice_len σ p } with hσ₁
  set σ₂ := check_for_arriving_processes σ₁ with hσ₂
  have hInv2 : Inv σ₂ := check_Inv hInv1
  have ht2 : σ₂.current_time = σ.current_time + slice_len σ p := check_time σ₁
  have hfval : ∀ q ∈ σ₁.processes_to_arrive,
      q.queue_num = 1 ∨ q.queue_num = 2 ∨ q.queue_num = 3 :=
    fun q hq => (hInv.hfeed q hq).2.2.1
  have hpids2 : pidsOf σ₂.processes_to_arrive + pidsOf σ₂.q1 +
      pidsOf σ₂.q2 + pidsOf σ₂.q3 =
      pidsOf σ.processes_to_arrive + pidsOf σ.q1 + pidsOf σ.q2 +
      pidsOf σ.q3 := by
    rw [hσ₂, check_feed_eq, check_q1_eq, check_q2_eq, check_q3_eq]
    exact admitLoop_pids σ₁.current_time σ₁.processes_to_arrive σ₁.q1 σ₁.q2
      σ₁.q3 hfval
  have hwork2 : workOf σ₂.processes_to_arrive + workOf σ₂.q1 +
      workOf σ₂.q2 + workOf σ₂.q3 =
      workOf σ.processes_to_arrive + workOf σ.q1 + workOf σ.q2 +
      workOf σ.q3 := by
    rw [hσ₂, check_feed_eq, check_q1_eq, check_q2_eq, check_q3_eq]
    exact admitLoop_work σ₁.current_time σ₁.processes_to_arrive σ₁.q1 σ₁.q2
      σ₁.q3 hfval
  have hmax2 : maxArr σ₂.processes_to_arrive ≤
      maxArr σ.processes_to_arrive := check_maxArr_le σ₁
  have hcomp2 : σ₂.completed_processes = σ.completed_processes :=
    check_completed σ₁
  have hrem' : (executed σ p).remaining_time =
      p.remaining_time - slice_len σ p := executed_remaining σ p
  by_cases h0 : (executed σ p).remaining_time = 0
  · have hF : execute_process σ p =
        { σ₂ with
          completed_processes := σ₂.completed_processes ++
            [finalizedRecord σ₂ (executed σ p)]
          current_process := none } := by
      rw [execute_process_final h0]
      rfl
    have hdoneF : DoneProc (finalizedRecord σ₂ (executed σ p)) := by
      refine ⟨?_, ?_, ?_, ?_, ?_, ?_, ?_, ?_⟩
      · rw [finalizedRecord_burst, executed_burst]; omega
      · rw [finalizedRecord_remaining]; exact h0
      · rw [finalizedRecord_turnaround, finalizedRecord_completion,
          finalizedRecord_arrival]
      · rw [finalizedRecord_waiting, finalizedRecord_turnaround,
          finalizedRecord_burst]
      · rw [finalizedRecord_response, finalizedRecord_first_run,
          finalizedRecord_arrival]
      · rw [finalizedRecord_arrival, finalizedRecord_burst,
          finalizedRecord_completion, executed_arrival, executed_burst, ht2]
        omega
      · rw [finalizedRecord_arrival, executed_arrival]; omega
      · rw [finalizedRecord_arrival, finalizedRecord_first_run]
        exact hfr2
    refine ⟨?_, ?_, ?_, ?_⟩
    · rw [hF]
      refine ⟨hInv2.hq1, hInv2.hq2, hInv2.ht, hInv2.hfeed, hInv2.hQ1,
        hInv2.hQ2, hInv2.hQ3, ?_⟩
      intro q hq
      rcases List.mem_append.mp hq with h1 | h1
      · exact hInv2.hdone q h1
      · rw [List.mem_singleton.mp h1]
        exact hdoneF
    · rw [hF]
    · rw [hF]
      show pidsOf σ₂.processes_to_arrive + pidsOf σ₂.q1 + pidsOf σ₂.q2 +
        pidsOf σ₂.q3 + pidsOf (σ₂.completed_processes ++
          [finalizedRecord σ₂ (executed σ p)]) = _
      rw [pidsOf_append, pidsOf_singleton, finalizedRecord_pid,
        executed_pid, hcomp2, ← add_assoc, hpids2]
    · rw [hF]
      show workOf σ₂.processes_to_arrive + workOf σ₂.q1 + workOf σ₂.q2 +
        workOf σ₂.q3 +
        (maxArr σ₂.processes_to_arrive - σ₂.current_time).toNat + 1 ≤ _
      omega
  · have hrge : 0 ≤ (executed σ p).remaining_time := by omega
    have hq12 : p.queue_num = 1 ∨ p.queue_num = 2 := by
      rcases hpq with h | h | h
      · exact Or.inl h
      · exact Or.inr h
      · exfalso
        rw [hrem', slice_len_q3 σ h] at h0
        omega
    have hqueued' : QueuedProc σ₂.current_time (executed σ p) := by
      refine ⟨?_, ?_, ?_, ?_, Or.inr hfr2⟩
      · omega
      · rw [hrem', executed_burst]; omega
      · rw [executed_arrival]; omega
      · rw [executed_arrival, executed_burst, hrem', ht2]; omega
    rcases hq12 with hqn | hqn
    · have hR : execute_process σ p =
          { σ₂ with
            q1 := σ₂.q1 ++ [executed σ p]
            current_process := none } := by
        rw [execute_process_requeue h0]
        simp only [executed_queue_num, hqn, reduceIte]
      refine ⟨?_, ?_, ?_, ?_⟩
      · rw [hR]
        refine ⟨hInv2.hq1, hInv2.hq2, hInv2.ht, hInv2.hfeed, ?_, hInv2.hQ2,
          hInv2.hQ3, hInv2.hdone⟩
        intro q hq
        rcases List.mem_append.mp hq with h1 | h1
        · exact hInv2.hQ1 q h1
        · rw [List.mem_singleton.mp h1]
          exact ⟨by rw [executed_queue_num]; exact hqn, hqueued'⟩
      · rw [hR]
      · rw [hR]
        show pidsOf σ₂.processes_to_arrive +
          pidsOf (σ₂.q1 ++ [executed σ p]) + pidsOf σ₂.q2 + pidsOf σ₂.q3 +
          pidsOf σ₂.completed_processes = _
        rw [pidsOf_append, pidsOf_singleton, executed_pid, hcomp2]
        rw [show pidsOf σ₂.processes_to_arrive +
          (pidsOf σ₂.q1 + {p.pid}) + pidsOf σ₂.q2 + pidsOf σ₂.q3 =
          pidsOf σ₂.processes_to_arrive + pidsOf σ₂.q1 + pidsOf σ₂.q2 +
          pidsOf σ₂.q3 + {p.pid} from by abel, hpids2]
        abel
      · rw [hR]
        show workOf σ₂.processes_to_arrive +
          workOf (σ₂.q1 ++ [executed σ p]) + workOf σ₂.q2 + workOf σ₂.q3 +
          (maxArr σ₂.processes_to_arrive - σ₂.current_time).toNat + 1 ≤ _
        rw [workOf_append, workOf_singleton, hrem']
        omega
    · have hR : execute_process σ p =
          { σ₂ with
            q2 := σ₂.q2 ++ [executed σ p]
            current_process := none } := by
        rw [execute_process_requeue h0]
        simp only [executed_queue_num, hqn]
        norm_num
      refine ⟨?_, ?_, ?_, ?_⟩
      · rw [hR]
        refine ⟨hInv2.hq1, hInv2.hq2, hInv2.ht, hInv2.hfeed, hInv2.hQ1, ?_,
          hInv2.hQ3, hInv2.hdone⟩
        intro q hq
        rcases List.mem_append.mp hq with h1 | h1
        · exact hInv2.hQ2 q h1
        · rw [List.mem_singleton.mp h1]
          exact ⟨by rw [executed_queue_num]; exact hqn, hqueued'⟩
      · rw [hR]
      · rw [hR]
        show pidsOf σ₂.processes_to_arrive + pidsOf σ₂.q1 +
          pidsOf (σ₂.q2 ++ [executed σ p]) + pidsOf σ₂.q3 +
          pidsOf σ₂.completed_processes = _
        rw [pidsOf_append, pidsOf_singleton, executed_pid, hcomp2]
        rw [show pidsOf σ₂.processes_to_arrive + pidsOf σ₂.q1 +
          (pidsOf σ₂.q2 + {p.pid}) + pidsOf σ₂.q3 =
          pidsOf σ₂.processes_to_arrive + pidsOf σ₂.q1 + pidsOf σ₂.q2 +
          pidsOf σ₂.q3 + {p.pid} from by abel, hpids2]
        abel
      · rw [hR]
        show workOf σ₂.processes_to_arrive + workOf σ₂.q1 +
          workOf (σ₂.q2 ++ [executed σ p]) + workOf σ₂.q3 +
          (maxArr σ₂.processes_to_arrive - σ₂.current_time).toNat + 1 ≤ _
        rw [workOf_append, workOf_singleton, hrem']
        omega

/-! ### Selection characterized for the loop proof -/

theorem pidsOf_eq_zero {l : List Process} : pidsOf l = 0 ↔ l = [] := by
  cases l <;> simp [pidsOf]

theorem sortQ3_perm (l : List Process) : (sortQ3 l).Perm l :=
  List.mergeSort_perm l q3le

theorem list_cases (l : List Process) : l = [] ∨ ∃ p rest, l = p :: rest := by
  cases l with
  | nil => exact Or.inl rfl
  | cons a t => exact Or.inr ⟨a, t, rfl⟩

theorem allPids_none {sim : MLQSimulator} (h : sim.current_process = none) :
    allPids sim = pidsOf sim.processes_to_arrive + pidsOf sim.q1 +
      pidsOf sim.q2 + pidsOf sim.q3 + pidsOf sim.completed_processes := by
  unfold allPids
  rw [h]
  show _ + _ + _ + _ + _ + 0 = _
  rw [add_zero]

theorem allPids_some {sim : MLQSimulator} {p : Process}
    (h : sim.current_process = some p) :
    allPids sim = pidsOf sim.processes_to_arrive + pidsOf sim.q1 +
      pidsOf sim.q2 + pidsOf sim.q3 + pidsOf sim.completed_processes +
      {p.pid} := by
  unfold allPids
  rw [h]
  rfl

theorem simMeasure_none {sim : MLQSimulator}
    (h : sim.current_process = none) :
    simMeasure sim = workOf sim.processes_to_arrive + workOf sim.q1 +
      workOf sim.q2 + workOf sim.q3 +
      (maxArr sim.processes_to_arrive - sim.current_time).toNat := by
  unfold simMeasure
  rw [h]
  show _ + _ + _ + _ + 0 + _ = _
  omega

theorem simMeasure_some {sim : MLQSimulator} {p : Process}
    (h : sim.current_process = some p) :
    simMeasure sim = workOf sim.processes_to_arrive + workOf sim.q1 +
      workOf sim.q2 + workOf sim.q3 + p.remaining_time.toNat +
      (maxArr sim.processes_to_arrive - sim.current_time).toNat := by
  unfold simMeasure
  rw [h]
  rfl

theorem select_spec {σc : MLQSimulator} (hInvc : Inv σc)
    (hcurc : σc.current_process = none) :
    (σc.q1 = [] ∧ σc.q2 = [] ∧ σc.q3 = [] ∧
      select_next_process σc = σc) ∨
    ∃ p, (select_next_process σc).current_process = some p ∧
      Inv (select_next_process σc) ∧
      QueuedProc σc.current_time p ∧
      (p.queue_num = 1 ∨ p.queue_num = 2 ∨ p.queue_num = 3) ∧
      (select_next_process σc).current_time = σc.current_time ∧
      allPids (select_next_process σc) = allPids σc ∧
      simMeasure (select_next_process σc) = simMeasure σc := by
  rcases list_cases σc.q1 with h1 | ⟨p, rest, h1⟩
  · rcases list_cases σc.q2 with h2 | ⟨p, rest, h2⟩
    · rcases list_cases (sortQ3 σc.q3) with h3 | ⟨p, rest, h3⟩
      · have hq3 : σc.q3 = [] := by
          have h := sortQ3_perm σc.q3
          rw [h3] at h
          exact List.perm_nil.mp h.symm
        exact Or.inl ⟨h1, h2, hq3, select_of_empty h1 h2 hq3⟩
      · refine Or.inr ⟨p, ?_⟩
        have hsel := select_of_q3 h1 h2 h3
        have hperm : (p :: rest).Perm σc.q3 := h3 ▸ sortQ3_perm σc.q3
        have hpm : p ∈ σc.q3 := hperm.mem_iff.mp (List.mem_cons_self p rest)
        have hsub : ∀ q ∈ rest, q ∈ σc.q3 :=
          fun q hq => hperm.mem_iff.mp (List.mem_cons_of_mem p hq)
        obtain ⟨hqn, hqp⟩ := hInvc.hQ3 p hpm
        rw [hsel]
        refine ⟨rfl, ?_, hqp, Or.inr (Or.inr hqn), rfl, ?_, ?_⟩
        · refine ⟨hInvc.hq1, hInvc.hq2, hInvc.ht, hInvc.hfeed, hInvc.hQ1,
            hInvc.hQ2, ?_, hInvc.hdone⟩
          intro q hq
          exact hInvc.hQ3 q (hsub q hq)
        · show pidsOf σc.processes_to_arrive + pidsOf σc.q1 +
            pidsOf σc.q2 + pidsOf rest + pidsOf σc.completed_processes +
            {p.pid} = _
          rw [allPids_none hcurc, ← pidsOf_perm hperm, pidsOf_cons]
          abel
        · show workOf σc.processes_to_arrive + workOf σc.q1 +
            workOf σc.q2 + workOf rest + p.remaining_time.toNat +
            (maxArr σc.processes_to_arrive - σc.current_time).toNat = _
          rw [simMeasure_none hcurc, ← workOf_perm hperm, workOf_cons]
          omega
    · refine Or.inr ⟨p, ?_⟩
      have hsel := select_of_q2 h1 h2
      obtain ⟨hqn, hqp⟩ := hInvc.hQ2 p (h2 ▸ List.mem_cons_self p rest)
      rw [hsel]
      refine ⟨rfl, ?_, hqp, Or.inr (Or.inl hqn), rfl, ?_, ?_⟩
      · refine ⟨hInvc.hq1, hInvc.hq2, hInvc.ht, hInvc.hfeed, hInvc.hQ1, ?_,
          hInvc.hQ3, hInvc.hdone⟩
        intro q hq
        exact hInvc.hQ2 q (h2 ▸ List.mem_cons_of_mem p hq)
      · show pidsOf σc.processes_to_arrive + pidsOf σc.q1 + pidsOf rest +
          pidsOf σc.q3 + pidsOf σc.completed_processes + {p.pid} = _
        rw [allPids_none hcurc, h2, pidsOf_cons]
        abel
      · show workOf σc.processes_to_arrive + workOf σc.q1 + workOf rest +
          workOf σc.q3 + p.remaining_time.toNat +
          (maxArr σc.processes_to_arrive - σc.current_time).toNat = _
        rw [simMeasure_none hcurc, h2, workOf_cons]
        omega
  · refine Or.inr ⟨p, ?_⟩
    have hsel := select_of_q1 h1
    obtain ⟨hqn, hqp⟩ := hInvc.hQ1 p (h1 ▸ List.mem_cons_self p rest)
    rw [hsel]
    refine ⟨rfl, ?_, hqp, Or.inl hqn, rfl, ?_, ?_⟩
    · refine ⟨hInvc.hq1, hInvc.hq2, hInvc.ht, hInvc.hfeed, ?_, hInvc.hQ2,
        hInvc.hQ3, hInvc.hdone⟩
      intro q hq
      exact hInvc.hQ1 q (h1 ▸ List.mem_cons_of_mem p hq)
    · show pidsOf σc.processes_to_arrive + pidsOf rest + pidsOf σc.q2 +
        pidsOf σc.q3 + pidsOf σc.completed_processes + {p.pid} = _
      rw [allPids_none hcurc, h1, pidsOf_cons]
      abel
    · show workOf σc.processes_to_arrive + workOf rest + workOf σc.q2 +
        workOf σc.q3 + p.remaining_time.toNat +
        (maxArr σc.processes_to_arrive - σc.current_time).toNat = _
      rw [simMeasure_none hcurc, h1, workOf_cons]
      omega

/-! ### One iteration of the simulation loop -/

theorem run_simulation_cont {n : Nat} {sim : MLQSimulator}
    (hne : ¬(sim.processes_to_arrive = [] ∧ sim.q1 = [] ∧ sim.q2 = [] ∧
      sim.q3 = [] ∧ sim.current_process = none))
    (hcur : sim.current_process = none) :
    run_simulation (n + 1) sim =
      match (select_next_process
          (check_for_arriving_processes sim)).current_process with
      | some p => run_simulation n (execute_process
          (select_next_process (check_for_arriving_processes sim)) p)
      | none => run_simulation n
          { select_next_process (check_for_arriving_processes sim) with
            current_time := (select_next_process
              (check_for_arriving_processes sim)).current_time + 1 } := by
  simp only [run_simulation]
  rw [if_neg hne, check_current, hcur, if_pos rfl]

theorem loop_step {sim : MLQSimulator} (hInv : Inv sim)
    (hcur : sim.current_process = none)
    (hne : ¬(sim.processes_to_arrive = [] ∧ sim.q1 = [] ∧ sim.q2 = [] ∧
      sim.q3 = [] ∧ sim.current_process = none)) :
    ∃ sim', (∀ n, run_simulation (n + 1) sim = run_simulation n sim') ∧
      Inv sim' ∧ sim'.current_process = none ∧
      allPids sim' = allPids sim ∧ simMeasure sim' < simMeasure sim := by
  have hInvc : Inv (check_for_arriving_processes sim) := check_Inv hInv
  have hcurc : (check_for_arriving_processes sim).current_process = none := by
    rw [check_current]; exact hcur
  have hfv : ∀ p ∈ sim.processes_to_arrive,
      p.queue_num = 1 ∨ p.queue_num = 2 ∨ p.queue_num = 3 :=
    fun p hp => (hInv.hfeed p hp).2.2.1
  have hpidsc : allPids (check_for_arriving_processes sim) = allPids sim :=
    check_allPids hfv
  have hworkc := check_work hfv
  have hmaxc := check_maxArr_le sim
  have htc := check_time sim
  have hmsc : simMeasure (check_for_arriving_processes sim) ≤
      simMeasure sim := by
    rw [simMeasure_none hcurc, simMeasure_none hcur, htc]
    omega
  rcases select_spec hInvc hcurc with ⟨h1, h2, h3, hsel⟩ |
    ⟨p, hc, hI, hq, hpq, hst, hall, hms⟩
  · -- idle tick: all three queues empty after admission
    have hcons := admitLoop_pids sim.current_time sim.processes_to_arrive
      sim.q1 sim.q2 sim.q3 hfv
    rw [← check_feed_eq, ← check_q1_eq, ← check_q2_eq, ← check_q3_eq]
      at hcons
    have hfne : (check_for_arriving_processes sim).processes_to_arrive ≠
        [] := by
      intro hf
      rw [hf, h1, h2, h3] at hcons
      have hcard := congrArg Multiset.card hcons
      simp only [pidsOf, Multiset.card_add, Multiset.coe_card,
        List.length_map, List.length_nil] at hcard
      exact hne ⟨List.length_eq_zero.mp (by omega),
        List.length_eq_zero.mp (by omega),
        List.length_eq_zero.mp (by omega),
        List.length_eq_zero.mp (by omega), hcur⟩
    obtain ⟨p0, rest0, hfeq, hgt⟩ : ∃ p0 rest0,
        (check_for_arriving_processes sim).processes_to_arrive =
          p0 :: rest0 ∧ sim.current_time < p0.arrival_time := by
      rcases check_head sim with hnil | ⟨p0, r0, he, hgt⟩
      · exact absurd hnil hfne
      · exact ⟨p0, r0, he, hgt⟩
    have harr : sim.current_time <
        maxArr (check_for_arriving_processes sim).processes_to_arrive := by
      refine lt_of_lt_of_le hgt (le_maxArr_of_mem ?_)
      rw [hfeq]
      exact List.mem_cons_self p0 rest0
    refine ⟨{ check_for_arriving_processes sim with
      current_time := (check_for_arriving_processes sim).current_time + 1 },
      ?_, ?_, ?_, ?_, ?_⟩
    · intro n
      rw [run_simulation_cont hne hcur, hsel, hcurc]
    · refine ⟨hInvc.hq1, hInvc.hq2, ?_, hInvc.hfeed, ?_, ?_, ?_,
        hInvc.hdone⟩
      · show 0 ≤ (check_for_arriving_processes sim).current_time + 1
        have := hInvc.ht
        omega
      · intro q hq
        obtain ⟨ha, hb⟩ := hInvc.hQ1 q hq
        refine ⟨ha, queued_mono hb ?_⟩
        show (check_for_arriving_processes sim).current_time ≤
          (check_for_arriving_processes sim).current_time + 1
        omega
      · intro q hq
        obtain ⟨ha, hb⟩ := hInvc.hQ2 q hq
        refine ⟨ha, queued_mono hb ?_⟩
        show (check_for_arriving_processes sim).current_time ≤
          (check_for_arriving_processes sim).current_time + 1
        omega
      · intro q hq
        obtain ⟨ha, hb⟩ := hInvc.hQ3 q hq
        refine ⟨ha, queued_mono hb ?_⟩
        show (check_for_arriving_processes sim).current_time ≤
          (check_for_arriving_processes sim).current_time + 1
        omega
    · exact hcurc
    · show allPids (check_for_arriving_processes sim) = allPids sim
      exact hpidsc
    · have h' : ({ check_for_arriving_processes sim with
          current_time :=
            (check_for_arriving_processes sim).current_time + 1 } :
          MLQSimulator).current_process = none := hcurc
      rw [simMeasure_none h', simMeasure_none hcur]
      show workOf (check_for_arriving_processes sim).processes_to_arrive +
        workOf (check_for_arriving_processes sim).q1 +
        workOf (check_for_arriving_processes sim).q2 +
        workOf (check_for_arriving_processes sim).q3 +
        (maxArr (check_for_arriving_processes sim).processes_to_arrive -
          ((check_for_arriving_processes sim).current_time + 1)).toNat < _
      rw [htc]
      omega
  · -- a process was selected and executes
    have hq' : QueuedProc (select_next_process
        (check_for_arriving_processes sim)).current_time p := by
      rw [hst]; exact hq
    obtain ⟨eI, eC, eP, eW⟩ := execute_spec hI hq' hpq
    refine ⟨execute_process (select_next_process
      (check_for_arriving_processes sim)) p, ?_, eI, eC, ?_, ?_⟩
    · intro n
      rw [run_simulation_cont hne hcur, hc]
    · rw [allPids_none eC, eP, ← allPids_some hc, hall, hpidsc]
    · have e3 := simMeasure_some hc
      have e4 := simMeasure_none eC
      omega

/-! ### The whole run: termination with conservation, and invariants -/

theorem run_total : ∀ (n : Nat) (sim : MLQSimulator), Inv sim →
    sim.current_process = none → simMeasure sim < n →
    ∃ out, run_simulation n sim = some out ∧
      out.processes_to_arrive = [] ∧ out.q1 = [] ∧ out.q2 = [] ∧
      out.q3 = [] ∧ out.current_process = none ∧
      allPids out = allPids sim := by
  intro n
  induction n with
  | zero => intro sim _ _ h; omega
  | succ n ih =>
    intro sim hInv hcur hm
    by_cases hc : sim.processes_to_arrive = [] ∧ sim.q1 = [] ∧
        sim.q2 = [] ∧ sim.q3 = [] ∧ sim.current_process = none
    · refine ⟨sim, ?_, hc.1, hc.2.1, hc.2.2.1, hc.2.2.2.1, hc.2.2.2.2, rfl⟩
      simp only [run_simulation]
      rw [if_pos hc]
    · obtain ⟨sim', heq, hI, hC, hP, hM⟩ := loop_step hInv hcur hc
      obtain ⟨out, ho, h1, h2, h3, h4, h5, h6⟩ := ih sim' hI hC (by omega)
      exact ⟨out, by rw [heq n]; exact ho, h1, h2, h3, h4, h5, h6.trans hP⟩

theorem run_inv : ∀ (n : Nat) (sim out : MLQSimulator), Inv sim →
    sim.current_process = none → run_simulation n sim = some out →
    ∀ p ∈ out.completed_processes, DoneProc p := by
  intro n
  induction n with
  | zero =>
    intro sim out _ _ h
    simp [run_simulation] at h
  | succ n ih =>
    intro sim out hInv hcur hrun
    by_cases hc : sim.processes_to_arrive = [] ∧ sim.q1 = [] ∧
        sim.q2 = [] ∧ sim.q3 = [] ∧ sim.current_process = none
    · rw [show run_simulation (n + 1) sim = some sim from by
        simp only [run_simulation]; rw [if_pos hc]] at hrun
      obtain rfl := Option.some.inj hrun
      exact hInv.hdone
    · obtain ⟨sim', heq, hI, hC, _, _⟩ := loop_step hInv hcur hc
      rw [heq n] at hrun
      exact ih sim' out hI hC hrun

theorem pidsOf_card (l : List Process) :
    Multiset.card (pidsOf l) = l.length := by
  simp [pidsOf]

theorem initSim_Inv {recs : List (String × Int × Int × Int × Int)}
    (h : ∀ r ∈ recs, ValidRecord r) :
    Inv (initSim (recs.map loadRecord)) := by
  refine ⟨by show (1:Int) ≤ 3; norm_num, by show (1:Int) ≤ 5; norm_num,
    le_refl 0, ?_, ?_, ?_, ?_, ?_⟩
  · intro p hp
    obtain ⟨r, hr, rfl⟩ := List.mem_map.mp hp
    obtain ⟨hb, ha, hq⟩ := h r hr
    exact ⟨hb, ha, hq, rfl, rfl⟩
  · intro p hp; cases hp
  · intro p hp; cases hp
  · intro p hp; cases hp
  · intro p hp; cases hp

theorem allPids_initSim (l : List Process) :
    allPids (initSim l) = pidsOf l := by
  rw [allPids_none rfl]
  show pidsOf l + pidsOf [] + pidsOf [] + pidsOf [] + pidsOf [] = _
  rw [pidsOf_nil, add_zero, add_zero, add_zero, add_zero]

/-- C1: for every valid input list (positive burst times, non-negative
arrival times, queue assignment in {1,2,3}), `run_simulation` terminates
— some fuel makes the loop reach its exit — in a state whose feed,
queues, and running slot are all empty and whose completed list carries
exactly the input processes (the same multiset of identifiers, hence the
same count: nothing lost, duplicated, or left pending). -/
theorem run_simulation_terminates_and_conserves
    (recs : List (String × Int × Int × Int × Int))
    (hval : ∀ r ∈ recs, ValidRecord r) :
    ∃ n out,
      run_simulation n (initSim (recs.map loadRecord)) = some out ∧
      out.processes_to_arrive = [] ∧ out.q1 = [] ∧ out.q2 = [] ∧
      out.q3 = [] ∧ out.current_process = none ∧
      pidsOf out.completed_processes = pidsOf (recs.map loadRecord) ∧
      out.completed_processes.length = recs.length := by
  obtain ⟨out, ho, h1, h2, h3, h4, h5, h6⟩ :=
    run_total (simMeasure (initSim (recs.map loadRecord)) + 1)
      (initSim (recs.map loadRecord)) (initSim_Inv hval) rfl (by omega)
  have hpids : pidsOf out.completed_processes =
      pidsOf (recs.map loadRecord) := by
    have := h6
    rw [allPids_none h5, h1, h2, h3, h4, allPids_initSim, pidsOf_nil] at this
    simpa using this
  refine ⟨_, out, ho, h1, h2, h3, h4, h5, hpids, ?_⟩
  have := congrArg Multiset.card hpids
  rw [pidsOf_card, pidsOf_card, List.length_map] at this
  exact this

/-- C6: `finalize_process` appends a record whose metrics satisfy
exactly: completionTime = current simulated time, turnaroundTime =
completionTime − arrivalTime, waitingTime = turnaroundTime − burstTime,
responseTime = firstRunTime − arrivalTime. -/
theorem finalize_metrics (sim : MLQSimulator) (p : Process) :
    ∃ q, (finalize_process sim p).completed_processes =
      sim.completed_processes ++ [q] ∧
      q.pid = p.pid ∧ q.arrival_time = p.arrival_time ∧
      q.burst_time = p.burst_time ∧ q.first_run_time = p.first_run_time ∧
      q.completion_time = sim.current_time ∧
      q.turnaround_time = q.completion_time - q.arrival_time ∧
      q.waiting_time = q.turnaround_time - q.burst_time ∧
      q.response_time = q.first_run_time - q.arrival_time :=
  ⟨finalizedRecord sim p, rfl, rfl, rfl, rfl, rfl, rfl, rfl, rfl, rfl⟩

/-- C7: every process completed by a run over a valid input satisfies
completionTime ≥ arrivalTime + burstTime, and its turnaround, waiting,
and response times are all non-negative. -/
theorem completed_metrics_nonneg
    (recs : List (String × Int × Int × Int × Int))
    (hval : ∀ r ∈ recs, ValidRecord r)
    (n : Nat) (out : MLQSimulator)
    (hrun : run_simulation n (initSim (recs.map loadRecord)) = some out) :
    ∀ p ∈ out.completed_processes,
      p.arrival_time + p.burst_time ≤ p.completion_time ∧
      0 ≤ p.turnaround_time ∧ 0 ≤ p.waiting_time ∧
      0 ≤ p.response_time := by
  intro p hp
  obtain ⟨hb, hrem, htat, hwt, hrt, hcb, ha0, haf⟩ :=
    run_inv n (initSim (recs.map loadRecord)) out (initSim_Inv hval) rfl
      hrun p hp
  exact ⟨hcb, by omega, by omega, by omega⟩

theorem check_feed_nil {sim : MLQSimulator}
    (h : sim.processes_to_arrive = []) :
    (check_for_arriving_processes sim).processes_to_arrive = [] := by
  rw [check_feed_eq, h]
  rfl

/-- C2: whenever the running slot is empty, selection pops the front of
Queue1 if non-empty, else the front of Queue2, else the head of Queue3
re-sorted by its key order; and if all three queues are empty after
admission while the feed still holds pending arrivals, the loop advances
the clock by exactly one unit, with the running slot staying empty
through that tick. -/
theorem selection_hierarchy_and_idle_tick (sim : MLQSimulator) (n : Nat) :
    (∀ p rest, sim.q1 = p :: rest →
      (select_next_process sim).current_process = some p ∧
      (select_next_process sim).q1 = rest) ∧
    (∀ p rest, sim.q1 = [] → sim.q2 = p :: rest →
      (select_next_process sim).current_process = some p ∧
      (select_next_process sim).q2 = rest) ∧
    (∀ p rest, sim.q1 = [] → sim.q2 = [] → sortQ3 sim.q3 = p :: rest →
      (select_next_process sim).current_process = some p ∧
      (select_next_process sim).q3 = rest) ∧
    (sim.current_process = none →
      (check_for_arriving_processes sim).q1 = [] →
      (check_for_arriving_processes sim).q2 = [] →
      (check_for_arriving_processes sim).q3 = [] →
      (check_for_arriving_processes sim).processes_to_arrive ≠ [] →
      run_simulation (n + 1) sim = run_simulation n
        { check_for_arriving_processes sim with
          current_time :=
            (check_for_arriving_processes sim).current_time + 1 } ∧
      (select_next_process
        (check_for_arriving_processes sim)).current_process = none) := by
  refine ⟨?_, ?_, ?_, ?_⟩
  · intro p rest h
    rw [select_of_q1 h]
    exact ⟨rfl, rfl⟩
  · intro p rest h1 h2
    rw [select_of_q2 h1 h2]
    exact ⟨rfl, rfl⟩
  · intro p rest h1 h2 h3
    rw [select_of_q3 h1 h2 h3]
    exact ⟨rfl, rfl⟩
  · intro hcur hq1 hq2 hq3 hfne
    have hne : ¬(sim.processes_to_arrive = [] ∧ sim.q1 = [] ∧
        sim.q2 = [] ∧ sim.q3 = [] ∧ sim.current_process = none) := by
      intro hall
      exact hfne (check_feed_nil hall.1)
    have hsel : select_next_process (check_for_arriving_processes sim) =
        check_for_arriving_processes sim := select_of_empty hq1 hq2 hq3
    constructor
    · rw [run_simulation_cont hne hcur, hsel, check_current, hcur]
    · rw [hsel, check_current]
      exact hcur

theorem execute_time (sim : MLQSimulator) (p : Process) :
    (execute_process sim p).current_time =
      sim.current_time + slice_len sim p := by
  by_cases h0 : (executed sim p).remaining_time = 0
  · rw [execute_process_final h0]
    rfl
  · rw [execute_process_requeue h0]
    dsimp only
    split_ifs <;> rfl

/-- C3: the executed slice advances the clock by exactly
min(quantum1, remainingTime) for a Queue1 process, by exactly
min(quantum2, remainingTime) for a Queue2 process, and by the full
remainingTime for a Queue3 process, which is thereby finalized in that
single slice — the equations hold for every feed, so arrivals during the
slice cannot alter it. -/
theorem slice_length_spec (sim : MLQSimulator) (p : Process) :
    (p.queue_num = 1 → (execute_process sim p).current_time =
      sim.current_time + min sim.quantum1 p.remaining_time) ∧
    (p.queue_num = 2 → (execute_process sim p).current_time =
      sim.current_time + min sim.quantum2 p.remaining_time) ∧
    (p.queue_num = 3 →
      (execute_process sim p).current_time =
        sim.current_time + p.remaining_time ∧
      ∃ q, (execute_process sim p).completed_processes =
        sim.completed_processes ++ [q] ∧ q.pid = p.pid ∧
        q.remaining_time = 0 ∧
        q.completion_time = sim.current_time + p.remaining_time) := by
  refine ⟨?_, ?_, ?_⟩
  · intro h
    rw [execute_time, slice_len_q1 sim h]
  · intro h
    rw [execute_time, slice_len_q2 sim h]
  · intro h
    have h0 : (executed sim p).remaining_time = 0 := by
      rw [executed_remaining, slice_len_q3 sim h]
      omega
    refine ⟨by rw [execute_time, slice_len_q3 sim h], ?_⟩
    rw [execute_process_final h0]
    refine ⟨finalizedRecord (check_for_arriving_processes
      { sim with current_time := sim.current_time + slice_len sim p })
      (executed sim p), rfl, ?_, ?_, ?_⟩
    · rw [finalizedRecord_pid, executed_pid]
    · rw [finalizedRecord_remaining]
      exact h0
    · rw [finalizedRecord_completion, check_time]
      show sim.current_time + slice_len sim p = _
      rw [slice_len_q3 sim h]

theorem q3le_trans : ∀ a b c : Process, q3le a b = true →
    q3le b c = true → q3le a c = true := by
  intro a b c
  simp only [q3le, decide_eq_true_eq]
  omega

theorem q3le_total : ∀ a b : Process, (q3le a b || q3le b a) = true := by
  intro a b
  simp only [q3le, Bool.or_eq_true, decide_eq_true_eq]
  omega

/-- C4: the Queue3 entry dispatched by selection is minimal under
(burstTime ascending, priority descending): against every entry of the
queue it has strictly smaller burst time, or equal burst time and a
priority at least as high — so on equal bursts the higher numeric
priority runs first. -/
theorem q3_dispatch_minimal (sim : MLQSimulator) (p : Process)
    (rest : List Process) (h1 : sim.q1 = []) (h2 : sim.q2 = [])
    (h3 : sortQ3 sim.q3 = p :: rest) :
    (select_next_process sim).current_process = some p ∧
    ∀ q ∈ sim.q3, p.burst_time < q.burst_time ∨
      (p.burst_time = q.burst_time ∧ q.priority ≤ p.priority) := by
  refine ⟨by rw [select_of_q3 h1 h2 h3], ?_⟩
  intro q hq
  have hsorted := List.sorted_mergeSort q3le_trans q3le_total sim.q3
  rw [show sim.q3.mergeSort q3le = sortQ3 sim.q3 from rfl, h3] at hsorted
  have hmem : q ∈ p :: rest :=
    (h3 ▸ sortQ3_perm sim.q3).mem_iff.mpr hq
  rcases List.mem_cons.mp hmem with rfl | hmem'
  · exact Or.inr ⟨rfl, le_refl _⟩
  · have := (List.pairwise_cons.mp hsorted).1 q hmem'
    simp only [q3le, decide_eq_true_eq] at this
    rcases this with h | ⟨he, hp⟩
    · exact Or.inl h
    · exact Or.inr ⟨he, by omega⟩

/-- Modelled from the spec (§4.2 and the design note in §9): after a
non-terminal slice the process is re-enqueued at the tail of its own
queue and the running slot is cleared unconditionally — without the
source's branch on Queue1 being non-empty. -/
def execute_process_spec (sim : MLQSimulator) (p : Process) :
    MLQSimulator :=
  let run_time := slice_len sim p
  let p := executed sim p
  let sim1 := check_for_arriving_processes
    { sim with current_time := sim.current_time + run_time }
  if p.remaining_time = 0 then
    { finalize_process sim1 p with current_process := none }
  else
    let sim2 :=
      if p.queue_num = 1 then { sim1 with q1 := sim1.q1 ++ [p] }
      else if p.queue_num = 2 then { sim1 with q2 := sim1.q2 ++ [p] }
      else sim1
    { sim2 with current_process := none }

/-- C5: the two syntactically distinct post-slice branches of
`execute_process` (conditioned on Queue1 being non-empty) are
behaviourally equal to the single unconditional step of
`execute_process_spec`: re-enqueue at the tail of the process's own
queue and clear the running slot. -/
theorem execute_process_branches_equal (sim : MLQSimulator)
    (p : Process) :
    execute_process sim p = execute_process_spec sim p := by
  unfold execute_process execute_process_spec
  dsimp only
  split_ifs <;> rfl

/-- C8: a slice keeps remainingTime non-negative (the slice length never
exceeds it); firstRunTime is written exactly once — set to the clock at
the start of the first slice when still the `-1` it was constructed
with, untouched afterwards; and completionTime is written exactly once,
by finalization, equal to the simulated time at which remainingTime
reached 0 — a slice itself never touches it, and a non-terminal slice
leaves the completed list unchanged. -/
theorem field_discipline (sim : MLQSimulator) (p : Process) :
    (∀ s b a qn pr, (mkProcess s b a qn pr).first_run_time = -1) ∧
    0 ≤ p.remaining_time - slice_len sim p ∧
    (p.first_run_time = -1 →
      (executed sim p).first_run_time = sim.current_time) ∧
    (¬ p.first_run_time = -1 →
      (executed sim p).first_run_time = p.first_run_time) ∧
    (executed sim p).completion_time = p.completion_time ∧
    ((executed sim p).remaining_time = 0 →
      ∃ q, (execute_process sim p).completed_processes =
        sim.completed_processes ++ [q] ∧ q.pid = p.pid ∧
        q.remaining_time = 0 ∧
        q.completion_time = sim.current_time + slice_len sim p) ∧
    (¬ (executed sim p).remaining_time = 0 →
      (execute_process sim p).completed_processes =
        sim.completed_processes) := by
  refine ⟨fun s b a qn pr => rfl, ?_, executed_first_run_set sim,
    executed_first_run_keep sim, executed_completion sim p, ?_, ?_⟩
  · unfold slice_len
    split_ifs <;> omega
  · intro h0
    rw [execute_process_final h0]
    refine ⟨finalizedRecord (check_for_arriving_processes
      { sim with current_time := sim.current_time + slice_len sim p })
      (executed sim p), rfl, ?_, ?_, ?_⟩
    · rw [finalizedRecord_pid, executed_pid]
    · rw [finalizedRecord_remaining]
      exact h0
    · rw [finalizedRecord_completion, check_time]
  · intro h0
    rw [execute_process_requeue h0]
    dsimp only
    split_ifs <;> rfl

/-- C9: over an empty completed list no aggregate is produced — the mean
computation is guarded, not attempted — and over a non-empty list all
four means (waiting, completion, response, turnaround) are produced. -/
theorem averages_guard (l : List Process) :
    (write_output_averages l = none ↔ l = []) ∧
    (l ≠ [] → write_output_averages l =
      some ((((l.map Process.waiting_time).sum : Int) : Rat) / l.length,
        (((l.map Process.completion_time).sum : Int) : Rat) / l.length,
        (((l.map Process.response_time).sum : Int) : Rat) / l.length,
        (((l.map Process.turnaround_time).sum : Int) : Rat) / l.length)) := by
  by_cases hl : l = []
  · subst hl
    refine ⟨by simp [write_output_averages], fun h => absurd rfl h⟩
  · have hlen : 0 < l.length := List.length_pos.mpr hl
    constructor
    · unfold write_output_averages
      rw [if_pos hlen]
      simp [hl]
    · intro _
      unfold write_output_averages
      rw [if_pos hlen]

/-- C10: when a Queue1 (resp. Queue2) slice ends with work left, any
record of a sorted feed that arrives during the slice and names the same
queue is enqueued ahead of the just-preempted process: the resulting
queue is the post-admission queue with the preempted process at the
tail, and the arrival is in the post-admission part. -/
theorem arrivals_ahead_of_preempted (sim : MLQSimulator) (p r : Process)
    (hs : sim.processes_to_arrive.Pairwise
      (fun a b => a.arrival_time ≤ b.arrival_time))
    (hr : r ∈ sim.processes_to_arrive)
    (hra : r.arrival_time ≤ sim.current_time + slice_len sim p) :
    (p.queue_num = 1 → sim.quantum1 < p.remaining_time →
      r.queue_num = 1 →
      ∃ qs p', (execute_process sim p).q1 = qs ++ [p'] ∧
        p'.pid = p.pid ∧ r ∈ qs) ∧
    (p.queue_num = 2 → sim.quantum2 < p.remaining_time →
      r.queue_num = 2 →
      ∃ qs p', (execute_process sim p).q2 = qs ++ [p'] ∧
        p'.pid = p.pid ∧ r ∈ qs) := by
  constructor
  · intro hqn hlt hrq
    have h0 : ¬ (executed sim p).remaining_time = 0 := by
      rw [executed_remaining, slice_len_q1 sim hqn]
      omega
    have hR : execute_process sim p =
        { check_for_arriving_processes
            { sim with current_time := sim.current_time + slice_len sim p }
          with
          q1 := (check_for_arriving_processes
            { sim with current_time :=
              sim.current_time + slice_len sim p }).q1 ++ [executed sim p]
          current_process := none } := by
      rw [execute_process_requeue h0]
      simp only [executed_queue_num, hqn, reduceIte]
    rw [hR]
    refine ⟨(check_for_arriving_processes
      { sim with current_time := sim.current_time + slice_len sim p }).q1,
      executed sim p, rfl, executed_pid sim p, ?_⟩
    rw [check_q1_eq]
    exact (admitLoop_admits hs hr hra sim.q1 sim.q2 sim.q3).1 hrq
  · intro hqn hlt hrq
    have h0 : ¬ (executed sim p).remaining_time = 0 := by
      rw [executed_remaining, slice_len_q2 sim hqn]
      omega
    have hR : execute_process sim p =
        { check_for_arriving_processes
            { sim with current_time := sim.current_time + slice_len sim p }
          with
          q2 := (check_for_arriving_processes
            { sim with current_time :=
              sim.current_time + slice_len sim p }).q2 ++ [executed sim p]
          current_process := none } := by
      rw [execute_process_requeue h0]
      simp only [executed_queue_num, hqn]
      norm_num
    rw [hR]
    refine ⟨(check_for_arriving_processes
      { sim with current_time := sim.current_time + slice_len sim p }).q2,
      executed sim p, rfl, executed_pid sim p, ?_⟩
    rw [check_q2_eq]
    exact (admitLoop_admits hs hr hra sim.q1 sim.q2 sim.q3).2.1 hrq

/-! ### Concrete witnesses -/

theorem run_simulation_terminates_and_conserves_witness :
    ∃ n out,
      run_simulation n (initSim (List.map loadRecord
        [("A", 2, 0, 1, 5)])) = some out ∧
      out.processes_to_arrive = [] ∧ out.q1 = [] ∧ out.q2 = [] ∧
      out.q3 = [] ∧ out.current_process = none ∧
      pidsOf out.completed_processes =
        pidsOf (List.map loadRecord [("A", 2, 0, 1, 5)]) ∧
      out.completed_processes.length =
        ([("A", 2, 0, 1, 5)] :
          List (String × Int × Int × Int × Int)).length :=
  run_simulation_terminates_and_conserves [("A", 2, 0, 1, 5)] (by decide)

theorem selection_hierarchy_and_idle_tick_witness :
    ((select_next_process
        { q1 := [mkProcess "A" 1 0 1 1] }).current_process =
        some (mkProcess "A" 1 0 1 1) ∧
      (select_next_process { q1 := [mkProcess "A" 1 0 1 1] }).q1 = []) ∧
    (run_simulation 1 (initSim [mkProcess "B" 1 5 1 1]) =
        run_simulation 0
          { check_for_arriving_processes
              (initSim [mkProcess "B" 1 5 1 1]) with
            current_time := (check_for_arriving_processes
              (initSim [mkProcess "B" 1 5 1 1])).current_time + 1 } ∧
      (select_next_process (check_for_arriving_processes
        (initSim [mkProcess "B" 1 5 1 1]))).current_process = none) :=
  ⟨(selection_hierarchy_and_idle_tick
      { q1 := [mkProcess "A" 1 0 1 1] } 0).1 (mkProcess "A" 1 0 1 1) [] rfl,
   (selection_hierarchy_and_idle_tick
      (initSim [mkProcess "B" 1 5 1 1]) 0).2.2.2 rfl (by decide)
      (by decide) (by decide) (by decide)⟩

theorem slice_length_spec_witness :
    ((execute_process (initSim []) (mkProcess "P" 5 0 1 1)).current_time =
      (initSim []).current_time +
        min (initSim []).quantum1
          (mkProcess "P" 5 0 1 1).remaining_time) ∧
    ((execute_process (initSim []) (mkProcess "Q" 4 0 3 1)).current_time =
      (initSim []).current_time +
        (mkProcess "Q" 4 0 3 1).remaining_time ∧
      ∃ q, (execute_process (initSim [])
          (mkProcess "Q" 4 0 3 1)).completed_processes =
        (initSim []).completed_processes ++ [q] ∧
        q.pid = (mkProcess "Q" 4 0 3 1).pid ∧ q.remaining_time = 0 ∧
        q.completion_time = (initSim []).current_time +
          (mkProcess "Q" 4 0 3 1).remaining_time) :=
  ⟨(slice_length_spec (initSim []) (mkProcess "P" 5 0 1 1)).1 rfl,
   (slice_length_spec (initSim []) (mkProcess "Q" 4 0 3 1)).2.2 rfl⟩

unseal List.merge List.mergeSort in
theorem q3_dispatch_minimal_witness :
    (select_next_process
      { q3 := [mkProcess "X" 5 0 3 2,
        mkProcess "Y" 5 0 3 5] }).current_process =
      some (mkProcess "Y" 5 0 3 5) ∧
    ((mkProcess "Y" 5 0 3 5).burst_time <
        (mkProcess "X" 5 0 3 2).burst_time ∨
      ((mkProcess "Y" 5 0 3 5).burst_time =
          (mkProcess "X" 5 0 3 2).burst_time ∧
        (mkProcess "X" 5 0 3 2).priority ≤
          (mkProcess "Y" 5 0 3 5).priority)) :=
  ⟨(q3_dispatch_minimal
      { q3 := [mkProcess "X" 5 0 3 2, mkProcess "Y" 5 0 3 5] }
      (mkProcess "Y" 5 0 3 5) [mkProcess "X" 5 0 3 2] rfl rfl
      (by decide)).1,
   (q3_dispatch_minimal
      { q3 := [mkProcess "X" 5 0 3 2, mkProcess "Y" 5 0 3 5] }
      (mkProcess "Y" 5 0 3 5) [mkProcess "X" 5 0 3 2] rfl rfl
      (by decide)).2 (mkProcess "X" 5 0 3 2) (by decide)⟩

theorem completed_metrics_nonneg_witness :
    (0 : Int) + 2 ≤ 2 ∧ (0 : Int) ≤ 2 ∧ (0 : Int) ≤ 0 ∧ (0 : Int) ≤ 0 :=
  completed_metrics_nonneg [("A", 2, 0, 1, 5)] (by decide) 2
    { quantum1 := 3
      quantum2 := 5
      q1 := []
      q2 := []
      q3 := []
      processes_to_arrive := []
      completed_processes := [{ pid := "A"
                                burst_time := 2
                                arrival_time := 0
                                queue_num := 1
                                priority := 5
                                remaining_time := 0
                                first_run_time := 0
                                completion_time := 2
                                turnaround_time := 2
                                waiting_time := 0
                                response_time := 0 }]
      current_time := 2
      current_process := none }
    (by decide)
    { pid := "A"
      burst_time := 2
      arrival_time := 0
      queue_num := 1
      priority := 5
      remaining_time := 0
      first_run_time := 0
      completion_time := 2
      turnaround_time := 2
      waiting_time := 0
      response_time := 0 }
    (by decide)

theorem field_discipline_witness :
    (mkProcess "S" 1 0 1 1).first_run_time = -1 ∧
    0 ≤ (mkProcess "P" 5 0 1 1).remaining_time -
      slice_len (initSim []) (mkProcess "P" 5 0 1 1) ∧
    (executed (initSim []) (mkProcess "P" 5 0 1 1)).first_run_time =
      (initSim []).current_time ∧
    ∃ q, (execute_process (initSim [])
        (mkProcess "Q" 2 0 1 1)).completed_processes =
      (initSim []).completed_processes ++ [q] ∧
      q.pid = (mkProcess "Q" 2 0 1 1).pid ∧ q.remaining_time = 0 ∧
      q.completion_time = (initSim []).current_time +
        slice_len (initSim []) (mkProcess "Q" 2 0 1 1) :=
  ⟨(field_discipline (initSim []) (mkProcess "P" 5 0 1 1)).1 "S" 1 0 1 1,
   (field_discipline (initSim []) (mkProcess "P" 5 0 1 1)).2.1,
   (field_discipline (initSim []) (mkProcess "P" 5 0 1 1)).2.2.1 rfl,
   (field_discipline (initSim []) (mkProcess "Q" 2 0 1 1)).2.2.2.2.2.1
     (by decide)⟩

theorem averages_guard_witness :
    (write_output_averages [] = none ↔ ([] : List Process) = []) ∧
    write_output_averages [mkProcess "A" 2 0 1 5] =
      some (((([mkProcess "A" 2 0 1 5].map
          Process.waiting_time).sum : Int) : Rat) /
          [mkProcess "A" 2 0 1 5].length,
        ((([mkProcess "A" 2 0 1 5].map
          Process.completion_time).sum : Int) : Rat) /
          [mkProcess "A" 2 0 1 5].length,
        ((([mkProcess "A" 2 0 1 5].map
          Process.response_time).sum : Int) : Rat) /
          [mkProcess "A" 2 0 1 5].length,
        ((([mkProcess "A" 2 0 1 5].map
          Process.turnaround_time).sum : Int) : Rat) /
          [mkProcess "A" 2 0 1 5].length) :=
  ⟨(averages_guard []).1, (averages_guard [mkProcess "A" 2 0 1 5]).2
    (by decide)⟩

theorem arrivals_ahead_of_preempted_witness :
    ∃ qs p', (execute_process (initSim [mkProcess "R" 1 2 1 1])
        (mkProcess "P" 5 0 1 1)).q1 = qs ++ [p'] ∧
      p'.pid = (mkProcess "P" 5 0 1 1).pid ∧
      mkProcess "R" 1 2 1 1 ∈ qs :=
  (arrivals_ahead_of_preempted (initSim [mkProcess "R" 1 2 1 1])
    (mkProcess "P" 5 0 1 1) (mkProcess "R" 1 2 1 1) (by decide)
    (by decide) (by decide)).1 rfl (by decide) rfl

end MLQ
